import Mathlib

/-!
# Verification of the orchard_sandbox ledger core

This development is a shallow embedding of the state-management core of the
orchard_sandbox repository (the active binary: `src/db.rs`, `src/types.rs`),
together with proofs and refutations of its specified properties.

Modelling conventions:

* The SQLite store is modelled by an explicit `State` record holding every
  table.  Tables whose rows carry a SQLite `INTEGER PRIMARY KEY` are lists of
  `(id, payload)` pairs; an `INSERT` without an explicit id assigns
  `max id + 1` (SQLite rowid assignment).  `Db::new` never enables
  `PRAGMA foreign_keys` (it only sets `journal_mode = WAL`), so declared
  foreign keys are not enforced: inserts of dangling references succeed.
* Each fallible `Db` method becomes a function `State → Except Err …`.  All
  writes in `submit_transaction`/`mine`/`connect_block` go through the single
  `rusqlite` transaction that is committed only at the very end of the
  method; an early error (or a Rust panic) drops the transaction, which rolls
  every write back.  This is modelled by state threading: the caller of a
  method that returns `.error` keeps its original `State`.
* The external crypto provider (orchard / incrementalmerkletree crates) is
  abstracted by a `Crypto` record of opaque functions.  A `NonEmptyFrontier`
  is represented semantically by the sequence of leaves appended so far
  (the crate's `(position, leaf, ommers)` triple is a compressed encoding of
  exactly this sequence); `root(Level 32)` is the depth-32 Merkle root of the
  left-aligned tree over those leaves, with empty subtrees filled by the
  canonical empty-subtree hashes.  An `IncrementalWitness` is represented by
  the leaf sequence of the tree it has seen plus the witnessed position:
  `IncrementalWitness::from_tree` witnesses the rightmost leaf of the tree it
  is created from, `append` extends the leaf sequence, and `root()` is the
  depth-32 root of the current leaf sequence.
* Rust `u64`/`u32` values are modelled by `Nat`, the signed
  `value_balance_orchard : i64` by `Int`; the modelled quantities are tiny
  fee/value sums for which the source's 64-bit arithmetic is exact.
-/

namespace OrchardSandbox

/-- A 32-byte nullifier, modelled opaquely. -/
abbrev NfB := Nat

/-- Extracted note commitment (cmx), modelled opaquely. -/
abbrev CmxB := Nat

/-- A 43-byte raw shielded address, modelled opaquely. -/
abbrev AddrB := Nat

/-- Embeds `MerkleHashOrchard` tree node hash, modelled opaquely. -/
abbrev Hash := Nat

/-- A shielded note `(recipient, value, rho, rseed)` (orchard `Note`). -/
structure Note where
  recipient : AddrB
  value : Nat
  rho : Nat
  rseed : Nat
deriving Repr, DecidableEq

/-- One shielded action of a transaction (`types::Action`).  Only the
nullifier and the extracted note commitment drive the modelled logic; the
remaining wire fields (`rk`, `epk_bytes`, ciphertexts, `cv_net`) are carried
opaquely as the decryption payload consumed by `Crypto.decryptNote`. -/
structure ActionData where
  nf : NfB
  cmx : CmxB
  payload : Nat
deriving Repr, DecidableEq

/-- The external crypto provider (spec §6.2): orchard and
incrementalmerkletree primitives treated as opaque functions. -/
structure Crypto where
  /-- Embeds `MerkleHashOrchard::combine(level, a, b)` — level-indexed node hash. -/
  combine : Nat → Hash → Hash → Hash
  /-- Embeds `MerkleHashOrchard::empty_leaf()`. -/
  emptyLeaf : Hash
  /-- Embeds `MerkleHashOrchard::from_cmx`. -/
  fromCmx : CmxB → Hash
  /-- Embeds `Note::commitment()` followed by `ExtractedNoteCommitment::from`. -/
  commit : Note → CmxB
  /-- Decryption of one action's output under the wallet's external-scope
  incoming viewing key (`Bundle::decrypt_outputs_with_keys` acts per action,
  in action order). `none` when the action's output is not owned. -/
  decryptNote : ActionData → Option Note
  /-- Embeds `FullViewingKey::address_at(index, Scope::External)`. -/
  addressAt : Nat → AddrB

/-- One transparent output (`types::Output`). -/
structure Output where
  value : Nat
deriving Repr, DecidableEq

/-- An on-chain transaction (`types::Transaction`). -/
structure Transaction where
  inputs : List Nat
  outputs : List Output
  actions : List ActionData
  value_balance_orchard : Int
deriving Repr, DecidableEq

/-- Embeds `Transaction::nullifiers`: one nullifier per action, in action order. -/
def Transaction.nullifiers (t : Transaction) : List NfB :=
  t.actions.map (·.nf)

/-- Embeds `Transaction::extracted_note_commitments`: one cmx per action, in action
order. -/
def Transaction.extracted_note_commitments (t : Transaction) : List CmxB :=
  t.actions.map (·.cmx)

/-- A block (`types::Block`). -/
structure Block where
  transactions : List Transaction
deriving Repr, DecidableEq

/-- Embeds `Block::nullifiers`: concatenation over transactions in block order. -/
def Block.nullifiers (b : Block) : List NfB :=
  (b.transactions.map Transaction.nullifiers).flatten

/-- Embeds `Block::extracted_note_commitments`: concatenation over transactions in
block order. -/
def Block.extracted_note_commitments (b : Block) : List CmxB :=
  (b.transactions.map Transaction.extracted_note_commitments).flatten

/-! ## Merkle frontier and incremental witness semantics -/

/-- Canonical empty-subtree hash at a given level
(`MerkleHashOrchard::empty_root`). -/
def emptyRoot (C : Crypto) (n : Nat) : Hash :=
  (List.range n).foldl (fun e lvl => C.combine lvl e e) C.emptyLeaf

/-- Root of the depth-`n` left-aligned Merkle tree over the given leaf
sequence, empty subtrees filled with the canonical empty-subtree hashes.
`NonEmptyFrontier::root(Some(Level(32)))` over a frontier holding exactly
these leaves equals `treeRoot C 32 leaves`. -/
def treeRoot (C : Crypto) : Nat → List Hash → Hash
  | 0, ls => ls.headD C.emptyLeaf
  | n + 1, ls =>
      if ls.isEmpty then emptyRoot C (n + 1)
      else C.combine n (treeRoot C n (ls.take (2 ^ n))) (treeRoot C n (ls.drop (2 ^ n)))

/-- Embeds `Anchor::empty_tree()`: root of the empty depth-32 tree. -/
def emptyAnchor (C : Crypto) : Hash := emptyRoot C 32

/-- Root of a (non-empty) frontier at level 32, as used for anchors. -/
def frontierRoot (C : Crypto) (leaves : List Hash) : Hash := treeRoot C 32 leaves

/-- Embeds `IncrementalWitness<MerkleHashOrchard, 32>` modelled semantically: the
leaf sequence of the tree it tracks plus the witnessed position. -/
structure IncWitness where
  leaves : List Hash
  position : Nat
deriving Repr, DecidableEq

/-- Embeds `IncrementalWitness::from_tree`: witnesses the rightmost leaf of the tree
it is created from. -/
def IncWitness.from_tree (f : List Hash) : IncWitness :=
  ⟨f, f.length - 1⟩

/-- Embeds `IncrementalWitness::append`. -/
def IncWitness.append (w : IncWitness) (l : Hash) : IncWitness :=
  ⟨w.leaves ++ [l], w.position⟩

/-- Embeds `IncrementalWitness::root()`: depth-32 root of the tree holding every
leaf the witness has seen. -/
def IncWitness.root (C : Crypto) (w : IncWitness) : Hash :=
  treeRoot C 32 w.leaves

/-! ## Persisted state -/

/-- One row of the `notes` table. -/
structure NoteRow where
  recipient : AddrB
  value : Nat
  rho : Nat
  rseed : Nat
  witness : IncWitness
deriving Repr, DecidableEq

/-- One row of the `blocks` table: `(id, fee, frontier, block)`; the frontier
column is nullable. -/
structure BlockRow where
  id : Nat
  fee : Nat
  frontier : Option (List Hash)
  block : Block
deriving Repr, DecidableEq

/-- The SQLite store (`orchard.db3`), one field per table of the schema
created by `Db::new`'s migrations.  `wallet_seed` is omitted: the seed only
feeds the opaque key derivation already absorbed into `Crypto`. -/
structure State where
  utxos : List (Nat × Nat)
  notes : List (Nat × NoteRow)
  nullifiers : List NfB
  transactions : List Transaction
  blocks : List BlockRow
  inputs : List Nat
  outputs : List Nat
  shielded_inputs : List Nat
  shielded_outputs : List (AddrB × Nat)
  addresses : List (Nat × AddrB)
deriving Repr, DecidableEq

/-- Errors surfaced by the modelled `Db` methods.  `panicked` stands for a
Rust panic: the process aborts before `tx.commit()`, so the open store
transaction is rolled back exactly as for a returned error. -/
inductive Err where
  | queryNoRows
  | nullifierExists
  | negativeFee
  | verifyFailed
  | panicked
deriving Repr, DecidableEq

/-- Largest id present in a table of `(id, payload)` rows (0 when empty).
A SQLite `INSERT` into an `INTEGER PRIMARY KEY` table without an explicit id
assigns `maxId + 1`. -/
def maxId (rows : List (Nat × α)) : Nat :=
  rows.foldl (fun m r => max m r.1) 0

/-- Largest block id (0 when the `blocks` table is empty). -/
def maxBlockId (rows : List BlockRow) : Nat :=
  rows.foldl (fun m r => max m r.id) 0

/-- Insertion step of sorting the `blocks` table by id descending. -/
def insertDesc (r : BlockRow) : List BlockRow → List BlockRow
  | [] => [r]
  | x :: xs => if x.id ≤ r.id then r :: x :: xs else x :: insertDesc r xs

/-- Embeds `ORDER BY id DESC` over the `blocks` table (insertion sort; block ids are
unique, so stability is irrelevant). -/
def sortByIdDesc : List BlockRow → List BlockRow
  | [] => []
  | x :: xs => insertDesc x (sortByIdDesc xs)

/-- Embeds `SELECT value FROM utxos WHERE id = ?1` (at most one row: id is the
primary key). -/
def lookupUtxo (s : State) (id : Nat) : Option Nat :=
  (s.utxos.find? (fun r => r.1 = id)).map (·.2)

/-- Embeds `SELECT … FROM notes WHERE id = ?1`. -/
def lookupNote (s : State) (id : Nat) : Option NoteRow :=
  (s.notes.find? (fun r => r.1 = id)).map (·.2)

/-! ## Db methods -/

/-- Embeds `Db::spend_utxo`: `INSERT INTO inputs (utxo_id) VALUES (?1)`.  Foreign
keys are not enforced (`PRAGMA foreign_keys` is never enabled by `Db::new`),
so the insert succeeds for every id, dangling or not. -/
def spend_utxo (s : State) (utxo_id : Nat) : State :=
  { s with inputs := s.inputs ++ [utxo_id] }

/-- Embeds `Db::spend_note`: `INSERT INTO shielded_inputs (note_id) VALUES (?1)`;
like `spend_utxo`, no existence check is performed. -/
def spend_note (s : State) (note_id : Nat) : State :=
  { s with shielded_inputs := s.shielded_inputs ++ [note_id] }

/-- Embeds `Db::create_utxo`: `INSERT INTO outputs (value) VALUES (?1)`. -/
def create_utxo (s : State) (value : Nat) : State :=
  { s with outputs := s.outputs ++ [value] }

/-- Embeds `Db::get_utxo_value`: `SELECT value FROM utxos WHERE id = ?1`; a missing
row surfaces as `QueryReturnedNoRows`. -/
def get_utxo_value (s : State) (id : Nat) : Except Err Nat :=
  match lookupUtxo s id with
  | none => .error .queryNoRows
  | some v => .ok v

/-- Embeds `Db::get_note` (note fetch only): `SELECT … FROM notes WHERE id = ?1`;
a missing row surfaces as `QueryReturnedNoRows`. -/
def get_note (s : State) (note_id : Nat) : Except Err NoteRow :=
  match lookupNote s note_id with
  | none => .error .queryNoRows
  | some r => .ok r

/-- Embeds `Db::get_bundle_anchor`:
`SELECT frontier FROM blocks ORDER BY id DESC LIMIT 1 OFFSET 3`; no such row,
or a NULL frontier, yields `Anchor::empty_tree()`. -/
def get_bundle_anchor (C : Crypto) (s : State) : Hash :=
  match ((sortByIdDesc s.blocks).drop 3).head? with
  | none => emptyAnchor C
  | some row =>
      match row.frontier with
      | none => emptyAnchor C
      | some f => frontierRoot C f

/-- Embeds `Db::get_last_frontier`:
`SELECT frontier FROM blocks ORDER BY id DESC LIMIT 1`; no row, or a NULL
frontier, yields `None`. -/
def get_last_frontier (s : State) : Option (List Hash) :=
  match (sortByIdDesc s.blocks).head? with
  | none => none
  | some row => row.frontier

/-- Embeds `Db::nullifier_exists`:
`SELECT nullifier FROM nullifiers WHERE nullifier = ?1`. -/
def nullifier_exists (s : State) (nf : NfB) : Bool :=
  s.nullifiers.contains nf

/-- Embeds `Db::insert_nullifier`: `INSERT INTO nullifiers (nullifier) VALUES (?1)`. -/
def insert_nullifier (s : State) (nf : NfB) : State :=
  { s with nullifiers := s.nullifiers ++ [nf] }

/-- Embeds `Db::clear_transaction`: delete all four mempool tables. -/
def clear_transaction (s : State) : State :=
  { s with inputs := [], outputs := [], shielded_inputs := [], shielded_outputs := [] }

/-- Embeds `Db::clear_transactions`: `DELETE FROM transactions`. -/
def clear_transactions (s : State) : State :=
  { s with transactions := [] }

/-- Embeds `Db::store_note`: insert one `(recipient, value, rho, rseed, witness)`
row into `notes`. -/
def store_note (s : State) (note : Note) (w : IncWitness) : State :=
  { s with notes := s.notes ++
      [(maxId s.notes + 1, ⟨note.recipient, note.value, note.rho, note.rseed, w⟩)] }

/-- Embeds `Db::store_block`: insert `(fee, frontier, block)` into `blocks`. -/
def store_block (s : State) (frontier : Option (List Hash)) (fee : Nat) (b : Block) : State :=
  { s with blocks := s.blocks ++ [⟨maxBlockId s.blocks + 1, fee, frontier, b⟩] }

/-! ## Transaction validation (`Db::validate_transaction`) -/

/-- The `value_in` accumulation loop of `Db::validate_transaction`: each
transparent input is looked up in `utxos`; a missing row surfaces as
`QueryReturnedNoRows` at the first dangling id. -/
def sumInputs (s : State) : List Nat → Int → Except Err Int
  | [], acc => .ok acc
  | id :: rest, acc =>
      match lookupUtxo s id with
      | none => .error .queryNoRows
      | some v => sumInputs s rest (acc + (v : Int))

/-- Embeds `Db::validate_transaction`: nullifier freshness, then (as in the source)
the bundle is reconstructed but *not* verified — the verification step is a
TODO in `connect_block` — then the transparent inputs are summed, and
`fee = value_in + value_balance_orchard − value_out` is rejected when
negative and otherwise returned as unsigned (`fee as u64`). -/
def validate_transaction (s : State) (t : Transaction) : Except Err Nat :=
  if t.nullifiers.any (fun nf => nullifier_exists s nf) then
    .error .nullifierExists
  else
    match sumInputs s t.inputs 0 with
    | .error e => .error e
    | .ok value_in =>
        let value_out : Int := (t.outputs.map (fun o => (o.value : Int))).sum
        let fee : Int := value_in + t.value_balance_orchard - value_out
        if fee < 0 then .error .negativeFee else .ok fee.toNat

/-- Modelled from the spec: §4.3 step 3 — the crypto provider's
`verify_bundle` call (proofs, binding signature, spend statements), which the
source marks as a TODO and never performs.  The opaque boolean `verify` is
consulted on the reconstructed bundle's actions (a bundle is absent when the
action list is empty, in which case there is nothing to verify), and the
validator fails fatally on `false`; every other step is as in
`validate_transaction`. -/
def validate_transaction_spec (verify : List ActionData → Bool) (s : State)
    (t : Transaction) : Except Err Nat :=
  if t.nullifiers.any (fun nf => nullifier_exists s nf) then
    .error .nullifierExists
  else if !t.actions.isEmpty && !verify t.actions then
    .error .verifyFailed
  else
    match sumInputs s t.inputs 0 with
    | .error e => .error e
    | .ok value_in =>
        let value_out : Int := (t.outputs.map (fun o => (o.value : Int))).sum
        let fee : Int := value_in + t.value_balance_orchard - value_out
        if fee < 0 then .error .negativeFee else .ok fee.toNat

/-! ## Block connection (`Db::connect_block`) -/

/-- Embeds `DELETE FROM utxos WHERE id = ?1` for each transparent input. -/
def deleteUtxos (s : State) (ids : List Nat) : State :=
  ids.foldl (fun st id => { st with utxos := st.utxos.filter (fun r => r.1 ≠ id) }) s

/-- Embeds `INSERT INTO utxos (value) VALUES (?1)` for each transparent output, in
order. -/
def insertUtxos (s : State) (outs : List Output) : State :=
  outs.foldl (fun st o => { st with utxos := st.utxos ++ [(maxId st.utxos + 1, o.value)] }) s

/-- The transparent-state loop of `Db::connect_block`: validate each
transaction against the live store state, accumulate its fee, delete its
referenced UTXO rows and insert its outputs. -/
def applyTransparent (s : State) : List Transaction → Except Err (State × Nat)
  | [] => .ok (s, 0)
  | t :: rest =>
      match validate_transaction s t with
      | .error e => .error e
      | .ok fee =>
          match applyTransparent (insertUtxos (deleteUtxos s t.inputs) t.outputs) rest with
          | .error e => .error e
          | .ok (s2, rest_fee) => .ok (s2, fee + rest_fee)

/-- The wallet-owned notes of a block: for each transaction, the bundle is
reconstructed (absent when the action list is empty) and its outputs are
decrypted under the wallet IVK, in action order. -/
def decryptBlockNotes (C : Crypto) (b : Block) : List Note :=
  (b.transactions.map (fun t => t.actions.filterMap C.decryptNote)).flatten

/-- The witness-propagation loop of `Db::connect_block`: for each note, its
leaf is appended to the frontier and to every witness already held in
memory, and a fresh witness for the note is initialized from the frontier
just extended with its own leaf. -/
def witnessWalk (C : Crypto) (f : List Hash) (ws : List (IncWitness × Note)) :
    List Note → List Hash × List (IncWitness × Note)
  | [] => (f, ws)
  | note :: rest =>
      let leaf := C.fromCmx (C.commit note)
      let f1 := f ++ [leaf]
      let ws1 := ws.map (fun p => (p.1.append leaf, p.2))
      witnessWalk C f1 (ws1 ++ [(IncWitness.from_tree f1, note)]) rest

/-- The wallet-discovery section of `Db::connect_block`: decrypt the block's
owned notes, then walk *those notes' commitments only* (not every commitment
of the block) starting from the last persisted frontier (or from the first
owned note's commitment if none), producing the `(witness, note)` pairs that
will be stored. -/
def walletDiscovery (C : Crypto) (s : State) (b : Block) : List (IncWitness × Note) :=
  let notes := decryptBlockNotes C b
  match get_last_frontier s with
  | some f => (witnessWalk C f [] notes).2
  | none =>
      match notes with
      | [] => []
      | n0 :: rest =>
          let f := [C.fromCmx (C.commit n0)]
          (witnessWalk C f [(IncWitness.from_tree f, n0)] rest).2

/-- Modelled from the spec: §4.4 step 3c — missing from the source, whose
wallet-discovery walk skips non-owned commitments.  Starting from the last
persisted frontier (or the first commitment if none), *every* commitment in
the block extends the frontier; every witness already in memory is appended
with each subsequent commitment; a commitment that decrypts to an owned note
initializes that note's witness from the frontier at that moment. -/
def walletDiscoverySpec (C : Crypto) (s : State) (b : Block) : List (IncWitness × Note) :=
  let step := fun (acc : List Hash × List (IncWitness × Note)) (a : ActionData) =>
    let leaf := C.fromCmx a.cmx
    let f1 := acc.1 ++ [leaf]
    let ws1 := acc.2.map (fun p => (p.1.append leaf, p.2))
    match C.decryptNote a with
    | none => (f1, ws1)
    | some note => (f1, ws1 ++ [(IncWitness.from_tree f1, note)])
  let start := (get_last_frontier s).getD []
  (((b.transactions.map (·.actions)).flatten).foldl step (start, [])).2

/-- The nullifier-commit loop of `Db::connect_block`: every nullifier of the
block, in order, is checked for membership — against the persisted index
*and* against the nullifiers inserted earlier in this very loop — and then
inserted; any duplicate aborts the connect. -/
def insertNullifiers (s : State) : List NfB → Except Err State
  | [] => .ok s
  | nf :: rest =>
      if nullifier_exists s nf then .error .nullifierExists
      else insertNullifiers (insert_nullifier s nf) rest

/-- The final-frontier computation of `Db::connect_block`: append every
extracted note commitment of the block to the last persisted frontier
(creating it from the first commitment when none exists yet). -/
def finalFrontier (C : Crypto) (s : State) (b : Block) : Option (List Hash) :=
  let cmxs := b.extracted_note_commitments
  match get_last_frontier s with
  | some f => some (f ++ cmxs.map C.fromCmx)
  | none => if cmxs.isEmpty then none else some (cmxs.map C.fromCmx)

/-- Embeds `Db::connect_block`: transparent update (validation, fee accumulation,
UTXO mutation), wallet discovery and note/witness persistence, nullifier
commit with double-spend check, and final frontier computation, in source
order, threading one store transaction. -/
def connect_block (C : Crypto) (s : State) (b : Block) :
    Except Err (State × Option (List Hash) × Nat) :=
  match applyTransparent s b.transactions with
  | .error e => .error e
  | .ok (s1, total_fee) =>
      match insertNullifiers
          ((walletDiscovery C s1 b).foldl (fun st p => store_note st p.2 p.1) s1)
          b.nullifiers with
      | .error e => .error e
      | .ok s3 => .ok (s3, finalFrontier C s3 b, total_fee)

/-- Embeds `Db::mine`: within one store transaction, read the pending transactions;
if none, return without writing anything (the transaction is dropped and
rolled back, but no write has happened); else connect the block, persist it,
clear the pending transactions and commit. -/
def mine (C : Crypto) (s : State) : Except Err State :=
  if s.transactions.isEmpty then .ok s
  else
    match connect_block C s ⟨s.transactions⟩ with
    | .error e => .error e
    | .ok (s1, frontier, total_fee) =>
        .ok (clear_transactions (store_block s1 frontier total_fee ⟨s.transactions⟩))

/-- The externally observable store after running `Db::mine`: on success the
committed state, on error (or panic) the rolled-back original state — every
write of `mine`/`connect_block` goes through the single `rusqlite`
transaction that is only committed on the success path. -/
def mineRun (C : Crypto) (s : State) : State :=
  match mine C s with
  | .ok s1 => s1
  | .error _ => s

/-! ## Mempool submission (`Db::submit_transaction`) -/

/-- Embeds `Db::submit_transaction` as written in the source: read the anchor, fetch
`(note, witness)` for `shielded_inputs[0]` — a Rust index panic when no
shielded input is staged — then loop over the shielded inputs fetching each
note (`add_spend` errors are ignored: the `?` line is commented out), and
then hit the unconditional `panic!()` on the line after the loop.  The
bundle build, transaction packaging, persistence and mempool clearing that
follow in the source are unreachable. -/
def submit_transaction (C : Crypto) (s : State) : Except Err State :=
  let _anchor := get_bundle_anchor C s
  match s.shielded_inputs.head? with
  | none => .error .panicked
  | some id0 =>
      match get_note s id0 with
      | .error e => .error e
      | .ok _ =>
          match s.shielded_inputs.mapM (fun id => get_note s id) with
          | .error e => .error e
          | .ok _ => .error .panicked

/-! ## Address allocation (`Db::get_new_address`) -/

/-- Embeds `Db::get_new_address`: read the current maximum id of `addresses`
(`SELECT id … ORDER BY id DESC LIMIT 1`, defaulting to 0 when the table is
empty), derive the external-scope address at `index + 1`, insert its raw
bytes as a new row, and return the address.  Returns
`(new state, returned index, returned address)`. -/
def get_new_address (C : Crypto) (s : State) : State × Nat × AddrB :=
  let index := maxId s.addresses
  let addr := C.addressAt (index + 1)
  ({ s with addresses := s.addresses ++ [(maxId s.addresses + 1, addr)] }, index + 1, addr)

/-- The indices returned by `n` consecutive `get_new_address` calls. -/
def newAddressSeq (C : Crypto) (s : State) : Nat → List Nat
  | 0 => []
  | n + 1 =>
      let r := get_new_address C s
      r.2.1 :: newAddressSeq C r.1 n

/-! ## Concrete instances used to evaluate the model -/

/-- A concrete crypto provider for evaluating the model: an action whose
opaque payload is 1 decrypts to a note of the action's cmx value, so that
`commit` of the decrypted note coincides with the action's cmx, as in
orchard. -/
def cryptoW : Crypto where
  combine := fun lvl a b => a + 2 * b + lvl + 1
  emptyLeaf := 0
  fromCmx := fun c => c
  commit := fun n => n.value
  decryptNote := fun a => if a.payload = 1 then some ⟨0, a.cmx, 0, 0⟩ else none
  addressAt := fun i => i

/-- The store right after `Db::new` on a fresh directory: every table empty. -/
def State.empty : State := ⟨[], [], [], [], [], [], [], [], [], []⟩

/-- A store with one confirmed UTXO of value 100 and an empty mempool. -/
def st8 : State := { State.empty with utxos := [(1, 100)] }

/-- A store with one confirmed UTXO and two pending transactions, the second
of which references a nonexistent UTXO. -/
def st7 : State :=
  { State.empty with
      utxos := [(1, 100)],
      transactions := [⟨[1], [⟨70⟩], [], 0⟩, ⟨[99], [], [], 0⟩] }

/-- A shielded-only transaction with one action and a positive orchard value
balance. -/
def t6 : Transaction := ⟨[], [], [⟨3, 30, 0⟩], 5⟩

/-- The fee equation of spec §4.3 as a mathematical integer:
`Σ transparent_in + value_balance_orchard − Σ transparent_out`, a missing
UTXO row contributing 0 (validation never reaches the fee computation in
that case). -/
def feeSpec (s : State) (t : Transaction) : Int :=
  (t.inputs.map (fun id => (((lookupUtxo s id).getD 0 : Nat) : Int))).sum
    + t.value_balance_orchard
    - (t.outputs.map (fun o => (o.value : Int))).sum

theorem sumInputs_ok (s : State) (ids : List Nat) (acc : Int)
    (h : ∀ id ∈ ids, (lookupUtxo s id).isSome) :
    sumInputs s ids acc
      = .ok (acc + (ids.map (fun id => (((lookupUtxo s id).getD 0 : Nat) : Int))).sum) := by
  induction ids generalizing acc with
  | nil => simp [sumInputs]
  | cons id rest ih =>
      obtain ⟨v, hv⟩ := Option.isSome_iff_exists.mp (h id (List.mem_cons_self id rest))
      simp only [sumInputs, hv]
      rw [ih (acc + (v : Int)) (fun i hi => h i (List.mem_cons_of_mem _ hi))]
      simp only [List.map_cons, List.sum_cons, hv, Option.getD_some]
      congr 1
      ring

theorem sumInputs_error (s : State) (ids : List Nat) (acc : Int)
    (h : ∃ id ∈ ids, lookupUtxo s id = none) :
    sumInputs s ids acc = .error .queryNoRows := by
  induction ids generalizing acc with
  | nil => simp at h
  | cons id rest ih =>
      obtain ⟨j, hj, hnone⟩ := h
      cases hid : lookupUtxo s id with
      | none => simp [sumInputs, hid]
      | some v =>
          simp only [sumInputs, hid]
          apply ih
          rcases List.mem_cons.mp hj with rfl | hj'
          · rw [hid] at hnone; cases hnone
          · exact ⟨j, hj', hnone⟩

/-! ## Theorems -/

/-- C2: when every transparent input resolves to a UTXO row,
`Db::validate_transaction` returns
`fee = Σ transparent_in + value_balance_orchard − Σ transparent_out`
(the signed orchard balance acting as a transparent input when positive and
an output when negative) as an unsigned value; and it fails exactly when a
referenced UTXO row is missing, a nullifier is already present, or the fee
is negative. -/
theorem validate_transaction_correct (s : State) (t : Transaction) :
    ((∀ id ∈ t.inputs, (lookupUtxo s id).isSome) →
      (∀ nf ∈ t.nullifiers, nullifier_exists s nf = false) →
      0 ≤ feeSpec s t →
      validate_transaction s t = .ok (feeSpec s t).toNat)
    ∧ ((validate_transaction s t).isOk = false ↔
        ((∃ id ∈ t.inputs, lookupUtxo s id = none)
          ∨ (∃ nf ∈ t.nullifiers, nullifier_exists s nf = true)
          ∨ feeSpec s t < 0)) := by
  have hfee_eq : ∀ vin,
      vin = (t.inputs.map (fun id => (((lookupUtxo s id).getD 0 : Nat) : Int))).sum →
      vin + t.value_balance_orchard - (t.outputs.map (fun o => (o.value : Int))).sum
        = feeSpec s t := by
    intro vin hv
    rw [hv]; rfl
  constructor
  · intro hres hnf hfee
    unfold validate_transaction
    have hany : t.nullifiers.any (fun nf => nullifier_exists s nf) = false := by
      simp only [List.any_eq_false]
      intro nf hm
      simp [hnf nf hm]
    rw [hany]
    simp only [Bool.false_eq_true, if_false]
    rw [sumInputs_ok s t.inputs 0 hres]
    simp only [zero_add]
    rw [hfee_eq _ rfl, if_neg (not_lt.mpr hfee)]
  · unfold validate_transaction
    cases hany : t.nullifiers.any (fun nf => nullifier_exists s nf) with
    | true =>
        simp only [if_true, Except.isOk, Except.toBool]
        constructor
        · intro _
          right; left
          obtain ⟨nf, hm, hx⟩ := List.any_eq_true.mp hany
          exact ⟨nf, hm, hx⟩
        · intro _; trivial
    | false =>
        simp only [Bool.false_eq_true, if_false]
        have hnotnf : ¬ (∃ nf ∈ t.nullifiers, nullifier_exists s nf = true) := by
          intro ⟨nf, hm, hx⟩
          have := List.any_eq_false.mp hany nf hm
          simp [hx] at this
        by_cases hmiss : ∃ id ∈ t.inputs, lookupUtxo s id = none
        · rw [sumInputs_error s t.inputs 0 hmiss]
          simp only [Except.isOk, Except.toBool]
          exact ⟨fun _ => Or.inl hmiss, fun _ => trivial⟩
        · have hres : ∀ id ∈ t.inputs, (lookupUtxo s id).isSome := by
            intro id hm
            rcases hx : lookupUtxo s id with _ | v
            · exact absurd ⟨id, hm, hx⟩ hmiss
            · rfl
          rw [sumInputs_ok s t.inputs 0 hres]
          simp only [zero_add]
          rw [hfee_eq _ rfl]
          by_cases hneg : feeSpec s t < 0
          · rw [if_pos hneg]
            simp only [Except.isOk, Except.toBool]
            exact ⟨fun _ => Or.inr (Or.inr hneg), fun _ => trivial⟩
          · rw [if_neg hneg]
            simp only [Except.isOk, Except.toBool]
            constructor
            · intro h; cases h
            · rintro (h | h | h)
              · exact absurd h hmiss
              · exact absurd h hnotnf
              · exact absurd h hneg

theorem insertDesc_append (r : BlockRow) (l : List BlockRow)
    (h : ∀ y ∈ l, r.id < y.id) : insertDesc r l = l ++ [r] := by
  induction l with
  | nil => rfl
  | cons x xs ih =>
      have hx : r.id < x.id := h x (List.mem_cons_self x xs)
      rw [insertDesc, if_neg (not_le.mpr hx), ih (fun y hy => h y (List.mem_cons_of_mem _ hy))]
      rfl

theorem sortByIdDesc_eq_reverse (l : List BlockRow)
    (h : l.Pairwise (fun a b => a.id < b.id)) : sortByIdDesc l = l.reverse := by
  induction l with
  | nil => rfl
  | cons x xs ih =>
      have hp := List.pairwise_cons.mp h
      rw [sortByIdDesc, ih hp.2,
        insertDesc_append x xs.reverse (fun y hy => hp.1 y (List.mem_reverse.mp hy)),
        List.reverse_cons]

/-- C4: assuming only that block ids increase in insertion order (which
`store_block` guarantees), the anchor is the root of the frontier stored
with the fourth-most-recent block — the most recent block plus three
confirmations — and is the empty-tree anchor whenever fewer than four blocks
exist or that block's frontier snapshot is NULL. -/
theorem anchor_selection (C : Crypto) (s : State)
    (h : List.Pairwise (fun a b => a.id < b.id) s.blocks) :
    (s.blocks.length < 4 → get_bundle_anchor C s = emptyAnchor C)
    ∧ (∀ row, (s.blocks.reverse.drop 3).head? = some row →
        get_bundle_anchor C s
          = match row.frontier with
            | none => emptyAnchor C
            | some f => frontierRoot C f) := by
  unfold get_bundle_anchor
  rw [sortByIdDesc_eq_reverse s.blocks h]
  constructor
  · intro hlen
    have hnil : s.blocks.reverse.drop 3 = [] := by
      apply List.drop_eq_nil_of_le
      rw [List.length_reverse]
      omega
    rw [hnil]
    rfl
  · intro row hrow
    rw [hrow]

/-- The `blocks` table after five connected blocks, each with a frontier
snapshot. -/
def blockRowsW : List BlockRow :=
  [⟨1, 0, some [101], ⟨[]⟩⟩, ⟨2, 0, some [102], ⟨[]⟩⟩, ⟨3, 0, some [103], ⟨[]⟩⟩,
   ⟨4, 0, some [104], ⟨[]⟩⟩, ⟨5, 0, some [105], ⟨[]⟩⟩]

/-- A store with five connected blocks. -/
def st4 : State := { State.empty with blocks := blockRowsW }

/-- A store with two connected blocks. -/
def st4small : State := { State.empty with blocks := blockRowsW.take 2 }

/-- Witness for C4: with five blocks the anchor is the root of block 2's
frontier (anchor lag, spec §8 scenario 5); with two blocks it is the
empty-tree anchor. -/
theorem anchor_selection_witness :
    (st4small.blocks.length < 4 ∧ get_bundle_anchor cryptoW st4small = emptyAnchor cryptoW)
    ∧ ((st4.blocks.reverse.drop 3).head? = some ⟨2, 0, some [102], ⟨[]⟩⟩
        ∧ get_bundle_anchor cryptoW st4 = frontierRoot cryptoW [102]) :=
  ⟨⟨by decide, (anchor_selection cryptoW st4small (by decide)).1 (by decide)⟩,
   ⟨by decide,
    (anchor_selection cryptoW st4 (by decide)).2 ⟨2, 0, some [102], ⟨[]⟩⟩ (by decide)⟩⟩

theorem maxId_append {α : Type} (rows : List (Nat × α)) (x : Nat × α) :
    maxId (rows ++ [x]) = max (maxId rows) x.1 := by
  unfold maxId
  rw [List.foldl_append]
  rfl

theorem newAddressSeq_eq (C : Crypto) (s : State) (n : Nat) :
    newAddressSeq C s n = List.range' (maxId s.addresses + 1) n := by
  induction n generalizing s with
  | zero => rfl
  | succ n ih =>
      rw [newAddressSeq]
      simp only [get_new_address]
      rw [ih]
      have hmax :
          maxId (s.addresses ++
            [(maxId s.addresses + 1, C.addressAt (maxId s.addresses + 1))])
          = maxId s.addresses + 1 := by
        rw [maxId_append]
        exact Nat.max_eq_right (Nat.le_succ _)
      rw [hmax, List.range'_succ]

/-- C9: `get_new_address` reads the current maximum id of the `addresses`
table (0 when empty), derives the external-scope address at `index + 1` and
persists its raw bytes; across any sequence of calls, the returned indices
are the consecutive integers starting above the initial maximum, so no index
— and, for an injective derivation, no address — is ever returned twice. -/
theorem get_new_address_unique (C : Crypto) (s : State) :
    get_new_address C s
      = ({ s with addresses := s.addresses ++
            [(maxId s.addresses + 1, C.addressAt (maxId s.addresses + 1))] },
          maxId s.addresses + 1, C.addressAt (maxId s.addresses + 1))
    ∧ (∀ n, newAddressSeq C s n = List.range' (maxId s.addresses + 1) n)
    ∧ (∀ n, (newAddressSeq C s n).Nodup)
    ∧ (∀ n, Function.Injective C.addressAt →
        ((newAddressSeq C s n).map C.addressAt).Nodup) := by
  refine ⟨rfl, newAddressSeq_eq C s, fun n => ?_, fun n haddr => ?_⟩
  · rw [newAddressSeq_eq]
    exact List.nodup_range' _ n 1 (by omega)
  · rw [newAddressSeq_eq]
    exact (List.nodup_range' _ n 1 (by omega)).map haddr

/-- Witness for C9: with the identity derivation (injective), three calls on
the fresh store return the distinct indices 1, 2, 3 and three distinct
addresses. -/
theorem get_new_address_unique_witness :
    newAddressSeq cryptoW State.empty 3 = [1, 2, 3]
    ∧ (newAddressSeq cryptoW State.empty 3).Nodup
    ∧ ((newAddressSeq cryptoW State.empty 3).map cryptoW.addressAt).Nodup :=
  ⟨rfl, (get_new_address_unique cryptoW State.empty).2.2.1 3,
    (get_new_address_unique cryptoW State.empty).2.2.2 3 (fun _ _ hab => hab)⟩

theorem deleteUtxos_nullifiers (s : State) (ids : List Nat) :
    (deleteUtxos s ids).nullifiers = s.nullifiers := by
  induction ids generalizing s with
  | nil => rfl
  | cons id rest ih =>
      show ((id :: rest).foldl _ s).nullifiers = _
      rw [List.foldl_cons]
      exact ih _

theorem insertUtxos_nullifiers (s : State) (outs : List Output) :
    (insertUtxos s outs).nullifiers = s.nullifiers := by
  induction outs generalizing s with
  | nil => rfl
  | cons o rest ih =>
      show ((o :: rest).foldl _ s).nullifiers = _
      rw [List.foldl_cons]
      exact ih _

theorem applyTransparent_nullifiers (s : State) (ts : List Transaction)
    {r : State × Nat} (h : applyTransparent s ts = .ok r) :
    r.1.nullifiers = s.nullifiers := by
  induction ts generalizing s r with
  | nil =>
      unfold applyTransparent at h
      cases h
      rfl
  | cons t rest ih =>
      unfold applyTransparent at h
      cases hv : validate_transaction s t with
      | error e => rw [hv] at h; cases h
      | ok fee =>
          rw [hv] at h
          dsimp only at h
          cases hr : applyTransparent (insertUtxos (deleteUtxos s t.inputs) t.outputs) rest with
          | error e => rw [hr] at h; cases h
          | ok pr =>
              obtain ⟨s2, fee2⟩ := pr
              rw [hr] at h
              dsimp only at h
              cases h
              rw [ih _ hr, insertUtxos_nullifiers, deleteUtxos_nullifiers]

theorem storeNotesFold_nullifiers (s : State) (ws : List (IncWitness × Note)) :
    (ws.foldl (fun st p => store_note st p.2 p.1) s).nullifiers = s.nullifiers := by
  induction ws generalizing s with
  | nil => rfl
  | cons w rest ih =>
      rw [List.foldl_cons]
      exact ih _

theorem insertNullifiers_ok (s : State) (nfs : List NfB) {s' : State}
    (h : insertNullifiers s nfs = .ok s') :
    nfs.Nodup ∧ (∀ nf ∈ nfs, nf ∉ s.nullifiers) ∧ s'.nullifiers = s.nullifiers ++ nfs := by
  induction nfs generalizing s with
  | nil =>
      cases h
      exact ⟨List.nodup_nil, by simp, by simp⟩
  | cons nf rest ih =>
      unfold insertNullifiers at h
      by_cases hex : nullifier_exists s nf
      · rw [if_pos hex] at h; cases h
      · rw [if_neg hex] at h
        have hnfmem : nf ∉ s.nullifiers := by
          simpa [nullifier_exists] using hex
        obtain ⟨hnd, hfresh, heq⟩ := ih _ h
        have hfresh' : ∀ x ∈ rest, x ∉ s.nullifiers ++ [nf] := hfresh
        have hnfrest : nf ∉ rest := by
          intro hmem
          exact hfresh' nf hmem (by simp)
        refine ⟨List.nodup_cons.mpr ⟨hnfrest, hnd⟩, ?_, ?_⟩
        · intro x hx
          rcases List.mem_cons.mp hx with rfl | hx'
          · exact hnfmem
          · intro hmem
            exact hfresh' x hx' (List.mem_append_left _ hmem)
        · rw [heq]
          show (s.nullifiers ++ [nf]) ++ rest = s.nullifiers ++ nf :: rest
          rw [List.append_assoc, List.singleton_append]

/-- C3: whenever `Db::connect_block` succeeds, the block's nullifiers are
pairwise distinct (so two transactions in one block spending the same note
are rejected), none of them was already persisted, the nullifier lists of
distinct transactions in the block are pairwise disjoint, and the final
index is the old index extended by exactly the block's nullifiers — every
nullifier is checked for prior membership, both against the persisted index
and against those inserted earlier in the same block, before insertion. -/
theorem connect_block_no_double_spend (C : Crypto) (s : State) (b : Block)
    {r : State × Option (List Hash) × Nat} (h : connect_block C s b = .ok r) :
    b.nullifiers.Nodup
    ∧ (∀ nf ∈ b.nullifiers, nf ∉ s.nullifiers)
    ∧ (b.transactions.map Transaction.nullifiers).Pairwise List.Disjoint
    ∧ r.1.nullifiers = s.nullifiers ++ b.nullifiers := by
  unfold connect_block at h
  cases ha : applyTransparent s b.transactions with
  | error e => rw [ha] at h; cases h
  | ok p =>
      obtain ⟨s1, fee1⟩ := p
      rw [ha] at h
      dsimp only at h
      cases hn : insertNullifiers
          ((walletDiscovery C s1 b).foldl (fun st q => store_note st q.2 q.1) s1)
          b.nullifiers with
      | error e => rw [hn] at h; cases h
      | ok s3 =>
          rw [hn] at h
          cases h
          obtain ⟨hnd, hfresh, heq⟩ := insertNullifiers_ok _ _ hn
          have hbase :
              ((walletDiscovery C s1 b).foldl
                (fun st q => store_note st q.2 q.1) s1).nullifiers = s.nullifiers := by
            rw [storeNotesFold_nullifiers]
            exact applyTransparent_nullifiers s b.transactions ha
          rw [hbase] at hfresh heq
          refine ⟨hnd, hfresh, ?_, heq⟩
          exact (List.nodup_flatten.mp hnd).2

/-- A block of two shielded-only transactions with distinct nullifiers. -/
def b3 : Block := ⟨[⟨[], [], [⟨1, 10, 0⟩], 5⟩, ⟨[], [], [⟨2, 11, 0⟩], 0⟩]⟩

/-- Witness for C3: connecting `b3` to the fresh store succeeds, its
nullifiers are distinct and fresh, and the resulting index is `[1, 2]`. -/
theorem connect_block_no_double_spend_witness :
    connect_block cryptoW State.empty b3
      = .ok ({ State.empty with nullifiers := [1, 2] }, some [10, 11], 5)
    ∧ (Block.nullifiers b3).Nodup
    ∧ (∀ nf ∈ Block.nullifiers b3, nf ∉ State.empty.nullifiers) :=
  ⟨rfl, (connect_block_no_double_spend cryptoW State.empty b3 rfl).1,
    (connect_block_no_double_spend cryptoW State.empty b3 rfl).2.1⟩

/-- A block with one transaction of two actions: the first (cmx 10) is not
owned by the wallet, the second (cmx 11, payload 1) decrypts to the wallet
note `⟨0, 11, 0, 0⟩`. -/
def b5 : Block := ⟨[⟨[], [], [⟨1, 10, 0⟩, ⟨2, 11, 1⟩], 0⟩]⟩

/-- The store produced by connecting `b5` to the fresh store. -/
def r5 : State × Option (List Hash) × Nat :=
  ({ State.empty with
      notes := [(1, ⟨0, 11, 0, 0, ⟨[11], 0⟩⟩)],
      nullifiers := [1, 2] },
    some [10, 11], 0)

/-- C5 (refuted): the wallet-discovery walk of `Db::connect_block` extends
its frontier only with the commitments of *decrypted owned notes*, not with
every commitment of the block: connecting `b5` stores the owned note with
witness leaf sequence `[11]` (position 0), omitting the foreign commitment
10, while the block's persisted frontier holds `[10, 11]`.  The stored
witness root therefore differs from the frontier root at the moment the
witness was last updated; the spec-mandated walk (`walletDiscoverySpec`),
which appends every commitment, produces the witness `⟨[10, 11], 1⟩` whose
root does match. -/
theorem witness_walk_skips_foreign_commitments :
    connect_block cryptoW State.empty b5 = .ok r5
    ∧ r5.1.notes.map (fun p => p.2.witness) = [⟨[11], 0⟩]
    ∧ r5.2.1 = some [10, 11]
    ∧ (walletDiscoverySpec cryptoW State.empty b5).map Prod.fst = [⟨[10, 11], 1⟩]
    ∧ IncWitness.root cryptoW ⟨[11], 0⟩ ≠ frontierRoot cryptoW [10, 11]
    ∧ IncWitness.root cryptoW ⟨[10, 11], 1⟩ = frontierRoot cryptoW [10, 11] :=
  ⟨rfl, rfl, rfl, rfl, by decide, rfl⟩

/-- Witness for C2: in a store holding UTXO `(1, 100)` and nullifier 7, the
transaction spending UTXO 1 into a transparent output of 70 validates with
fee 30. -/
theorem validate_transaction_correct_witness :
    validate_transaction { State.empty with utxos := [(1, 100)], nullifiers := [7] }
        ⟨[1], [⟨70⟩], [], 0⟩
      = .ok ((feeSpec { State.empty with utxos := [(1, 100)], nullifiers := [7] }
          ⟨[1], [⟨70⟩], [], 0⟩).toNat)
    ∧ (feeSpec { State.empty with utxos := [(1, 100)], nullifiers := [7] }
        ⟨[1], [⟨70⟩], [], 0⟩).toNat = 30 :=
  ⟨(validate_transaction_correct _ _).1 (by decide) (by decide) (by decide), by decide⟩

/-- C1: `submit` never completes: `Db::submit_transaction` as written indexes
`shielded_inputs[0]` — a panic whenever no shielded input is staged — and,
when shielded inputs are staged, runs into the unconditional `panic!()`
after the spend loop (db.rs line 322); the bundle build, transaction
packaging, persistence and mempool clearing are unreachable, so the claim's
behaviour (in particular a purely-transparent submit producing an actionless
transaction) never happens. -/
theorem submit_transaction_never_completes (C : Crypto) (s : State) :
    (submit_transaction C s).isOk = false := by
  simp only [submit_transaction]
  cases h0 : s.shielded_inputs.head? with
  | none => rfl
  | some id0 =>
      cases h1 : get_note s id0 with
      | error e => simp [h1, Except.isOk, Except.toBool]
      | ok r =>
          cases h2 : s.shielded_inputs.mapM (fun id => get_note s id) with
          | error e => simp [h1, h2, Except.isOk, Except.toBool]
          | ok l => simp [h1, h2, Except.isOk, Except.toBool]

/-- C6: the validator never calls the crypto provider's bundle verification
(the source marks it TODO): a transaction whose bundle fails verification
under every verifier — `verify = fun _ => false` — is nevertheless accepted
by `Db::validate_transaction`, while the spec-mandated validator rejects
it. -/
theorem bundle_verification_not_invoked :
    validate_transaction State.empty t6 = .ok 5
    ∧ validate_transaction_spec (fun _ => false) State.empty t6 = .error .verifyFailed :=
  ⟨rfl, rfl⟩

/-- C8: with zero pending transactions `Db::mine` returns before writing
anything: the resulting store is exactly the input store, every table
unchanged. -/
theorem mine_empty_mempool_noop (C : Crypto) (s : State)
    (h : s.transactions = []) : mine C s = .ok s := by
  unfold mine
  rw [h]
  rfl

/-- Witness for C8: a store with one UTXO and an empty mempool is returned
untouched by `mine`. -/
theorem mine_empty_mempool_noop_witness : mine cryptoW st8 = .ok st8 :=
  mine_empty_mempool_noop cryptoW st8 rfl

/-- C7: every write of `Db::mine`/`Db::connect_block` goes through the single
store transaction committed only on the success path, so when `mine` fails at
any step the externally observable store is the unchanged input state. -/
theorem mine_rollback_on_error (C : Crypto) (s : State) (e : Err)
    (h : mine C s = .error e) : mineRun C s = s := by
  unfold mineRun
  rw [h]

/-- Witness for C7: a block whose first transaction is valid (and internally
deletes UTXO 1) and whose second references a nonexistent UTXO makes `mine`
fail; the observable store is unchanged despite the partial internal
mutation. -/
theorem mine_rollback_on_error_witness :
    mine cryptoW st7 = .error .queryNoRows ∧ mineRun cryptoW st7 = st7 :=
  ⟨rfl, mine_rollback_on_error cryptoW st7 .queryNoRows rfl⟩

/-- C10: staging performs no existence check — `spend_utxo` and `spend_note`
append their reference row and succeed for every id (foreign keys are never
enabled), and a dangling id surfaces only later, as `QueryReturnedNoRows`
from the UTXO lookup of validation or the note lookup of submit. -/
theorem staging_unchecked (s : State) (id : Nat) :
    spend_utxo s id = { s with inputs := s.inputs ++ [id] }
    ∧ spend_note s id = { s with shielded_inputs := s.shielded_inputs ++ [id] }
    ∧ (lookupUtxo s id = none →
        get_utxo_value s id = .error .queryNoRows
        ∧ validate_transaction s ⟨[id], [], [], 0⟩ = .error .queryNoRows)
    ∧ (lookupNote s id = none → get_note s id = .error .queryNoRows) := by
  refine ⟨rfl, rfl, fun h => ⟨?_, ?_⟩, fun h => ?_⟩
  · unfold get_utxo_value
    rw [h]
  · unfold validate_transaction
    simp [Transaction.nullifiers, sumInputs, h]
  · unfold get_note
    rw [h]

/-- Witness for C10: in the fresh store, id 5 matches no UTXO and no note,
yet both staging inserts succeed; the dangling UTXO reference errors at
validation time. -/
theorem staging_unchecked_witness :
    lookupUtxo State.empty 5 = none
    ∧ lookupNote State.empty 5 = none
    ∧ (spend_utxo State.empty 5).inputs = [5]
    ∧ (spend_note State.empty 5).shielded_inputs = [5]
    ∧ get_utxo_value State.empty 5 = .error .queryNoRows
    ∧ get_note State.empty 5 = .error .queryNoRows :=
  ⟨rfl, rfl, rfl, rfl, ((staging_unchecked State.empty 5).2.2.1 rfl).1,
    (staging_unchecked State.empty 5).2.2.2 rfl⟩

end OrchardSandbox
